import Mathlib

/-!
Verification development for the study-tracker application.

The program stores time-interval log records in a single table
`(id, start_time, end_time, duration_seconds)` and computes statistics
(streaks, totals, heatmap colors) from them.  Timestamps are modelled as
integers counting seconds since the epoch; a calendar date is the floor
division of such a timestamp by 86400.  Python `datetime.date` values are
therefore integers counting days, with Python `date` comparison and
`timedelta(days = 1)` arithmetic mapping to integer comparison and `+ 1`.
Rational numbers stand in for Python floats, and Python `round` (banker's
rounding, half to even) is modelled exactly.
-/

set_option maxHeartbeats 1000000

/-- A stored log record, mirroring the SQL row
`(id, start_time, end_time, duration_seconds)`. -/
structure LogRecord where
  id : Nat
  start_time : Int
  end_time : Int
  duration_seconds : Int
deriving Repr, DecidableEq

/-- Calendar date (day number) of a timestamp, the model of
`datetime.fromisoformat(t).date()`. -/
def dateOf (t : Int) : Int :=
  t.fdiv 86400

/-- Sum of the `duration_seconds` fields of a list of records. -/
def sumDur (l : List LogRecord) : Int :=
  (l.map fun r => r.duration_seconds).sum

/-- Python `round`: round half to even, the rounding used by `hms` and
`round(x, 2)`. -/
def pyRound (q : ℚ) : Int :=
  if q - ⌊q⌋ < 1 / 2 then ⌊q⌋
  else if 1 / 2 < q - ⌊q⌋ then ⌊q⌋ + 1
  else if ⌊q⌋ % 2 = 0 then ⌊q⌋ else ⌊q⌋ + 1

/-- Python `round(x, 2)`. -/
def pyRound2 (q : ℚ) : ℚ :=
  (pyRound (q * 100) : ℚ) / 100

/-- Zero-padded rendering of an integer field, the model of Python
`f"{n:02d}"`. -/
def pad2 (n : Int) : String :=
  if 0 ≤ n ∧ n < 10 then "0" ++ toString n else toString n

/-- Rendering of a whole number of seconds as `HH:MM:SS` via the two
`divmod` calls of `hms` (Python `divmod` is floor division). -/
def hmsInt (n : Int) : String :=
  pad2 (n.fdiv 3600) ++ ":" ++ pad2 ((n.fmod 3600).fdiv 60) ++ ":" ++ pad2 ((n.fmod 3600).fmod 60)

/-- The `hms` formatter of the source: `sec = int(round(sec))`, then
`h, m = divmod(sec, 3600); m, s = divmod(m, 60)`, each part zero padded. -/
def hms (sec : ℚ) : String :=
  let s0 : Int := pyRound sec
  let h := s0.fdiv 3600
  let m0 := s0.fmod 3600
  let m := m0.fdiv 60
  let s := m0.fmod 60
  pad2 h ++ ":" ++ pad2 m ++ ":" ++ pad2 s

/-- The sorted list of distinct start dates of the records, the model of
`sorted({datetime.fromisoformat(r['start_time']).date() for r in rows})`. -/
def datesOf (rows : List LogRecord) : List Int :=
  ((rows.map fun r => dateOf r.start_time).dedup).insertionSort (· ≤ ·)

/-- The backward walk of the current-streak loop, applied to the reversed
date list: count `1 +` one for each adjacent pair at distance exactly one
day, stopping at the first other gap. -/
def backRun : List Int → Nat
  | [] => 0
  | [_] => 1
  | a :: b :: r => if a - b = 1 then backRun (b :: r) + 1 else 1

/-- The current-streak computation of `calc_stats`: `0` unless the last
(most recent) date is `today` or `today - 1`, in which case the backward
walk counts the tail run; the source then re-checks the same condition a
second time and resets to `0` (a redundant second `if`, kept here). -/
def current_streak (dates : List Int) (today : Int) : Nat :=
  let cur :=
    match dates.getLast? with
    | none => 0
    | some last =>
      if last = today ∨ last = today - 1 then backRun dates.reverse else 0
  match dates.getLast? with
  | none => cur
  | some last => if last ≠ today ∧ last ≠ today - 1 then 0 else cur

/-- The loop of the longest-streak computation: for each next date, extend
the running count on a gap of exactly one day, reset it to `1` otherwise,
and keep the maximum seen. -/
def longestgo : Int → Nat → Nat → List Int → Nat
  | _, _, best, [] => best
  | prev, tmp, best, d :: r =>
    let t1 := if d - prev = 1 then tmp + 1 else 1
    longestgo d t1 (max best t1) r

/-- The longest-streak computation of `calc_stats`: `1` if any dates exist
(else `0`), then the pairwise loop. -/
def longest_streak : List Int → Nat
  | [] => 0
  | a :: r => longestgo a 1 1 r

/-- Weekday index of a day number, Monday = 0 (day 0 = 1970-01-01 was a
Thursday), the model of `date.weekday()`. -/
def weekdayIdx (z : Int) : Int :=
  (z + 3).emod 7

/-- Weekday name of a day number, the model of `strftime('%A')`. -/
def weekdayName (z : Int) : String :=
  let w := weekdayIdx z
  if w = 0 then "Monday"
  else if w = 1 then "Tuesday"
  else if w = 2 then "Wednesday"
  else if w = 3 then "Thursday"
  else if w = 4 then "Friday"
  else if w = 5 then "Saturday"
  else "Sunday"

/-- Proleptic Gregorian calendar date `(year, month, day)` of a day number
(days since 1970-01-01), the standard civil-from-days conversion modelling
Python `date`. -/
def civilFromDays (z : Int) : Int × Int × Int :=
  let z1 := z + 719468
  let era := z1.fdiv 146097
  let doe := z1 - era * 146097
  let yoe := (doe - doe.fdiv 1460 + doe.fdiv 36524 - doe.fdiv 146096).fdiv 365
  let doy := doe - (365 * yoe + yoe.fdiv 4 - yoe.fdiv 100)
  let mp := (5 * doy + 2).fdiv 153
  let dd := doy - (153 * mp + 2).fdiv 5 + 1
  let mm := mp + (if mp < 10 then 3 else -9)
  let yy := yoe + era * 400
  (yy + (if mm ≤ 2 then 1 else 0), mm, dd)

/-- Calendar year of a day number. -/
def yearOf (z : Int) : Int :=
  (civilFromDays z).1

/-- Calendar month of a day number. -/
def monthOf (z : Int) : Int :=
  (civilFromDays z).2.1

/-- Day number of a civil date `(y, m, d)`, the inverse conversion; used
for `today.replace(day=1)`. -/
def daysFromCivil (y m d : Int) : Int :=
  let y1 := y - (if m ≤ 2 then 1 else 0)
  let era := y1.fdiv 400
  let yoe := y1 - era * 400
  let mp := m + (if 2 < m then -3 else 9)
  let doy := (153 * mp + 2).fdiv 5 + d - 1
  let doe := yoe * 365 + yoe.fdiv 4 - yoe.fdiv 100 + doy
  era * 146097 + doe - 719468

/-- Ordinal day of the year (1-based) of a day number. -/
def dayOfYear (z : Int) : Int :=
  z - daysFromCivil (yearOf z) 1 1 + 1

/-- ISO weekday (Monday = 1 … Sunday = 7) of a day number. -/
def isoWeekdayOf (z : Int) : Int :=
  weekdayIdx z + 1

/-- Auxiliary weekday-of-December-31 value of the ISO week-count rule. -/
def pOf (y : Int) : Int :=
  (y + y.fdiv 4 - y.fdiv 100 + y.fdiv 400).emod 7

/-- Number of ISO weeks in an ISO year (52 or 53). -/
def weeksInYear (y : Int) : Int :=
  if pOf y = 4 ∨ pOf (y - 1) = 3 then 53 else 52

/-- ISO week number of a day number, the model of `date.isocalendar()[1]`. -/
def isoWeek (z : Int) : Int :=
  let w := (dayOfYear z - isoWeekdayOf z + 10).fdiv 7
  if w < 1 then weeksInYear (yearOf z - 1)
  else if w = 53 ∧ ¬weeksInYear (yearOf z) = 53 then 1
  else w

/-- One step of the defaultdict accumulation of seconds per weekday name;
insertion order (first occurrence first) is preserved, as in a Python
dict. -/
def addDayTotal : List (String × Int) → String → Int → List (String × Int)
  | [], k, v => [(k, v)]
  | (k0, v0) :: rest, k, v =>
    if k0 = k then (k0, v0 + v) :: rest else (k0, v0) :: addDayTotal rest k v

/-- Seconds studied per weekday name, accumulated over the records in
order. -/
def dayTotals (rows : List LogRecord) : List (String × Int) :=
  rows.foldl (fun acc r => addDayTotal acc (weekdayName (dateOf r.start_time)) r.duration_seconds) []

/-- The scan of Python `max(day_totals, key=day_totals.get)`: only a
strictly greater value replaces the current best, so ties keep the first
key in insertion order. -/
def argmaxGo : List (String × Int) → String → Int → String
  | [], bk, _ => bk
  | (k, v) :: rest, bk, bv =>
    if bv < v then argmaxGo rest k v else argmaxGo rest bk bv

/-- Busiest weekday name, `"N/A"` when there are no records. -/
def busiestOf (rows : List LogRecord) : String :=
  match dayTotals rows with
  | [] => "N/A"
  | (k, v) :: rest => argmaxGo rest k v

/-- The dictionary returned by `calc_stats`, as a structure (fields in the
order of the keys of the non-empty return). -/
structure StatsSnapshot where
  total_hours : String
  today_hours : String
  weekly_hours : String
  monthly_hours : String
  daily_avg : String
  weekly_avg : String
  monthly_avg : String
  avg_session_duration : String
  current_streak : Nat
  longest_streak : Nat
  total_sec : Int
  today_sec : Int
  week_sec : Int
  month_sec : Int
  total_study_days : Nat
  busiest_day : String
  consistency_percent : ℚ
deriving Repr, DecidableEq

/-- The statistics engine `calc_stats` of `tracker.py`, with the record
list and the current date passed explicitly (the source reads them from
the database and the system clock). -/
def calc_stats (rows : List LogRecord) (today : Int) : StatsSnapshot :=
  if rows = [] then
    ⟨"00:00:00", "00:00:00", "00:00:00", "00:00:00",
     "00:00:00", "00:00:00", "00:00:00", "00:00:00",
     0, 0, 0, 0, 0, 0, 0, "N/A", 0⟩
  else
    let total_sec := sumDur rows
    let week_start := today - weekdayIdx today
    let month_start := daysFromCivil (yearOf today) (monthOf today) 1
    let today_sec := sumDur (rows.filter fun r => decide (dateOf r.start_time = today))
    let week_sec := sumDur (rows.filter fun r => decide (week_start ≤ dateOf r.start_time))
    let month_sec := sumDur (rows.filter fun r => decide (month_start ≤ dateOf r.start_time))
    let dates := datesOf rows
    let weeks := (dates.map fun d => (yearOf d, isoWeek d)).dedup
    let months := (dates.map fun d => (yearOf d, monthOf d)).dedup
    let daily_avg : ℚ := if dates = [] then 0 else (total_sec : ℚ) / (dates.length : ℚ)
    let weekly_avg : ℚ := if weeks = [] then 0 else (total_sec : ℚ) / (weeks.length : ℚ)
    let monthly_avg : ℚ := if months = [] then 0 else (total_sec : ℚ) / (months.length : ℚ)
    let avg_session : ℚ := if rows = [] then 0 else (total_sec : ℚ) / (rows.length : ℚ)
    let consistency : ℚ :=
      if dates = [] then 0
      else if 0 < today - dates.headI + 1 then
        ((dates.length : ℚ) / ((today - dates.headI + 1 : Int) : ℚ)) * 100
      else 0
    ⟨hms (total_sec : ℚ), hms (today_sec : ℚ), hms (week_sec : ℚ), hms (month_sec : ℚ),
     hms daily_avg, hms weekly_avg, hms monthly_avg, hms avg_session,
     current_streak dates today, longest_streak dates,
     total_sec, today_sec, week_sec, month_sec,
     dates.length, busiestOf rows, pyRound2 consistency⟩

/-- Model of `DELETE FROM logs WHERE id=?`. -/
def deleteById (st : List LogRecord) (i : Nat) : List LogRecord :=
  st.filter fun r => decide (¬r.id = i)

/-- Model of `UPDATE logs SET end_time=?, duration_seconds=? WHERE id=?`. -/
def updateById (st : List LogRecord) (i : Nat) (dur endT : Int) : List LogRecord :=
  st.map fun r => if r.id = i then ⟨r.id, r.start_time, endT, dur⟩ else r

/-- The direct-edit operation of `tracker.py` (`apply_change` inside
`_edit_log`): fetch the record, add `mins * 60` to its duration, delete it
when the new duration is `≤ 0`, otherwise set the new duration and
`end_time = start_time + new_duration`. -/
def apply_change (st : List LogRecord) (log_id : Nat) (mins : Int) : List LogRecord :=
  let secs := mins * 60
  match st.find? fun r => decide (r.id = log_id) with
  | none => st
  | some log =>
    let newDur := log.duration_seconds + secs
    if newDur ≤ 0 then deleteById st log_id
    else updateById st log_id newDur (log.start_time + newDur)

/-- The direct-edit operation of the `part_000` variant: identical except
that it sets `end_time = start_time + secs_to_change` (the delta alone)
instead of `start_time + new_duration`. -/
def apply_change_v0 (st : List LogRecord) (log_id : Nat) (mins : Int) : List LogRecord :=
  let secs := mins * 60
  match st.find? fun r => decide (r.id = log_id) with
  | none => st
  | some log =>
    let newDur := log.duration_seconds + secs
    if newDur ≤ 0 then deleteById st log_id
    else updateById st log_id newDur (log.start_time + secs)

/-- The records whose start date equals the target date (the list
comprehension of the deduct branch of `_manual_op`). -/
def onDate (st : List LogRecord) (d : Int) : List LogRecord :=
  st.filter fun r => decide (dateOf r.start_time = d)

/-- Descending start-time order, the key of
`sorted(logs, key=..., reverse=True)`. -/
def startDesc (a b : LogRecord) : Prop :=
  b.start_time ≤ a.start_time

instance : DecidableRel startDesc :=
  fun a b => inferInstanceAs (Decidable (b.start_time ≤ a.start_time))

instance : IsTotal LogRecord startDesc :=
  ⟨fun a b => (le_total b.start_time a.start_time).elim Or.inl Or.inr⟩

instance : IsTrans LogRecord startDesc :=
  ⟨fun _ _ _ h1 h2 => le_trans h2 h1⟩

/-- The on-date records in descending start-time order (a stable sort, as
Python's `sorted`). -/
def sortedOnDate (st : List LogRecord) (d : Int) : List LogRecord :=
  (onDate st d).insertionSort startDesc

/-- The deduction loop of `_manual_op`: walk the sorted records; stop when
nothing remains to deduct; delete a record whose whole duration fits into
the remainder; otherwise shrink it (and the remainder becomes `0`, so the
next iteration stops). -/
def deductGo : List LogRecord → Int → List LogRecord → List LogRecord
  | [], _, st => st
  | l :: ls, rem, st =>
    if rem ≤ 0 then st
    else if l.duration_seconds ≤ rem then
      deductGo ls (rem - l.duration_seconds) (deleteById st l.id)
    else
      deductGo ls 0
        (updateById st l.id (l.duration_seconds - rem)
          (l.start_time + (l.duration_seconds - rem)))

/-- The Deduct operation of `_manual_op`: `sec = mins * 60`; if no record
starts on the target date, report and change nothing; otherwise run the
deduction loop over the on-date records in descending start-time order. -/
def deduct (st : List LogRecord) (d : Int) (mins : Int) : List LogRecord :=
  let sec := mins * 60
  if onDate st d = [] then st
  else deductGo (sortedOnDate st d) sec st

/-- A JSON object offered to the import: flags for the presence of the
three required keys, plus the values used when present. -/
structure ImportRec where
  hasStart : Bool
  hasEnd : Bool
  hasDur : Bool
  startVal : String
  endVal : String
  durVal : Int
deriving Repr, DecidableEq

/-- The key check `all(k in r for k in ("start_time","end_time","duration_seconds"))`. -/
def importWellFormed (r : ImportRec) : Bool :=
  r.hasStart && r.hasEnd && r.hasDur

/-- The import loop: skip records missing a key; attempt the insert
otherwise, and swallow a per-record insert failure (`except
sqlite3.Error: pass`) — `fail` says whether the insert at a given position
fails.  Returns the successfully inserted rows and the reported count. -/
def importGo (fail : Nat → Bool) : List ImportRec → Nat → List (String × String × Int) × Nat
  | [], _ => ([], 0)
  | r :: rs, idx =>
    let rest := importGo fail rs (idx + 1)
    if importWellFormed r then
      if fail idx then rest
      else ((r.startVal, r.endVal, r.durVal) :: rest.1, rest.2 + 1)
    else rest

/-- The `import_json` operation over an already-parsed record list. -/
def import_json (recs : List ImportRec) (fail : Nat → Bool) : List (String × String × Int) × Nat :=
  importGo fail recs 0

/-- Model of `max_val = max(data.values()) if data else 1` of the heatmap. -/
def maxVal (data : List (Int × Nat)) : Nat :=
  match data.map Prod.snd with
  | [] => 1
  | v :: vs => vs.foldl max v

/-- The `get_color` bucketing of the heatmap, returning the index of the
color tier (0 = the "zero" color, 4 = the top tier). -/
def getColorIdx (maxv : Nat) (v : Nat) : Nat :=
  if v = 0 then 0
  else
    let p : ℚ := (v : ℚ) / (maxv : ℚ)
    if p < 1 / 4 then 1
    else if p < 1 / 2 then 2
    else if p < 3 / 4 then 3
    else 4

/-- Color tier drawn for a date: `seconds = data.get(current_date, 0)`
followed by `get_color(seconds)`. -/
def dayColor (data : List (Int × Nat)) (d : Int) : Nat :=
  getColorIdx (maxVal data) ((List.lookup d data).getD 0)

/-- Ascending one-day step between adjacent dates (spec side). -/
def dstep (a b : Int) : Prop :=
  b - a = 1

/-- Length of the longest initial run of consecutive dates of a list
(spec side). -/
def headRun : List Int → Nat
  | [] => 0
  | [_] => 1
  | a :: b :: r => if b - a = 1 then headRun (b :: r) + 1 else 1

/-- Length of the longest run of consecutive dates anywhere in a list
(spec side): the maximum of `headRun` over all suffixes. -/
def maxRun : List Int → Nat
  | [] => 0
  | a :: r => max (headRun (a :: r)) (maxRun r)

/-- Length of the initial run of a list continuing a previous date by
one-day steps (bridging function). -/
def extRun : Int → List Int → Nat
  | _, [] => 0
  | prev, d :: r => if d - prev = 1 then extRun d r + 1 else 0

/-- Maximum, over the positions of a list, of the length of the run ending
there, where a run may extend backwards into a credit of `tmp` dates
ending at `prev` (bridging function for the longest-streak loop). -/
def runsMax : Nat → Int → List Int → Nat
  | _, _, [] => 0
  | tmp, prev, d :: r =>
    let t1 := if d - prev = 1 then tmp + 1 else 1
    max t1 (runsMax t1 d r)

/-! ### Rounding and rendering (claim C7) -/

lemma pyRound_near (q : ℚ) : |(pyRound q : ℚ) - q| ≤ 1 / 2 := by
  have h0 : (⌊q⌋ : ℚ) ≤ q := Int.floor_le q
  have h1 : q < ⌊q⌋ + 1 := Int.lt_floor_add_one q
  unfold pyRound
  split_ifs with ha hb hc
  · exact abs_le.mpr ⟨by linarith, by linarith⟩
  · push_cast
    exact abs_le.mpr ⟨by linarith, by linarith⟩
  · have he : q - ⌊q⌋ = 1 / 2 := le_antisymm (not_lt.mp hb) (not_lt.mp ha)
    exact abs_le.mpr ⟨by linarith, by linarith⟩
  · have he : q - ⌊q⌋ = 1 / 2 := le_antisymm (not_lt.mp hb) (not_lt.mp ha)
    push_cast
    exact abs_le.mpr ⟨by linarith, by linarith⟩

lemma pyRound_nonneg (q : ℚ) (hq : 0 ≤ q) : 0 ≤ pyRound q := by
  have h0 : 0 ≤ ⌊q⌋ := Int.floor_nonneg.mpr hq
  unfold pyRound
  split_ifs <;> omega

/-- Claim C7: for every non-negative input, `hms` first rounds the value to
the nearest whole second (to even at an exact tie) and then renders it as
zero-padded `HH:MM:SS`; in particular `hms 3661 = "01:01:01"` and
`hms 59.6 = "00:01:00"`. -/
theorem claim_C7_hms :
    (∀ q : ℚ, 0 ≤ q →
      hms q = hmsInt (pyRound q) ∧ 0 ≤ pyRound q ∧ |(pyRound q : ℚ) - q| ≤ 1 / 2) ∧
    hms 3661 = "01:01:01" ∧ hms (596 / 10) = "00:01:00" := by
  have hf1 : ⌊(3661 : ℚ)⌋ = 3661 := by
    rw [Int.floor_eq_iff]
    norm_num
  have hp1 : pyRound 3661 = 3661 := by
    unfold pyRound
    rw [hf1]
    norm_num
  have hf2 : ⌊(596 / 10 : ℚ)⌋ = 59 := by
    rw [Int.floor_eq_iff]
    norm_num
  have hp2 : pyRound (596 / 10) = 60 := by
    unfold pyRound
    rw [hf2]
    norm_num
  refine ⟨fun q hq => ⟨rfl, pyRound_nonneg q hq, pyRound_near q⟩, ?_, ?_⟩
  · show hmsInt (pyRound 3661) = "01:01:01"
    rw [hp1]
    decide
  · show hmsInt (pyRound (596 / 10)) = "00:01:00"
    rw [hp2]
    decide

/-- Witness for C7 at the concrete input `3661`. -/
theorem claim_C7_hms_witness :
    hms 3661 = hmsInt (pyRound 3661) ∧ 0 ≤ pyRound 3661 ∧ |(pyRound 3661 : ℚ) - 3661| ≤ 1 / 2 :=
  claim_C7_hms.1 3661 (by norm_num)

/-! ### Empty statistics (claim C5) -/

/-- Claim C5: with zero records `calc_stats` returns (totally, hence
without any exception) the snapshot with every formatted duration field
`"00:00:00"`, every seconds field `0`, both streaks `0`,
`total_study_days = 0`, `busiest_day = "N/A"` and
`consistency_percent = 0`. -/
theorem claim_C5_empty_stats :
    ∀ today : Int,
      calc_stats [] today =
        ⟨"00:00:00", "00:00:00", "00:00:00", "00:00:00",
         "00:00:00", "00:00:00", "00:00:00", "00:00:00",
         0, 0, 0, 0, 0, 0, 0, "N/A", 0⟩ :=
  fun _ => rfl

/-! ### Streak machinery (claims C1, C6, C9) -/

lemma backRun_pos : ∀ l : List Int, l ≠ [] → 1 ≤ backRun l
  | [], h => absurd rfl h
  | [_], _ => le_refl 1
  | _ :: _ :: _, _ => by
    unfold backRun
    split <;> omega

lemma backRun_le : ∀ l : List Int, backRun l ≤ l.length
  | [] => by simp [backRun]
  | [_] => by simp [backRun]
  | a :: b :: r => by
    have ih := backRun_le (b :: r)
    unfold backRun
    split <;> simp only [List.length_cons] at * <;> omega

lemma backRun_chain : ∀ l : List Int,
    List.Chain' (fun a b : Int => a - b = 1) (l.take (backRun l))
  | [] => by simp
  | [x] => by simp [backRun]
  | a :: b :: r => by
    unfold backRun
    by_cases h : a - b = 1
    · rw [if_pos h]
      have hpos := backRun_pos (b :: r) (by simp)
      obtain ⟨m, hm⟩ : ∃ m, backRun (b :: r) = m + 1 := ⟨backRun (b :: r) - 1, by omega⟩
      have hch := backRun_chain (b :: r)
      rw [hm] at *
      simp only [List.take_succ_cons] at *
      exact List.chain'_cons.mpr ⟨h, hch⟩
    · rw [if_neg h]
      simp

lemma backRun_front_le : ∀ (s l : List Int), s <+: l →
    List.Chain' (fun a b : Int => a - b = 1) s → s.length ≤ backRun l
  | [], _, _, _ => by simp
  | [x], l, hp, _ => by
    obtain ⟨t, ht⟩ := hp
    have : l = x :: t := by simpa using ht.symm
    subst this
    simpa using backRun_pos (x :: t) (by simp)
  | x :: y :: s, l, hp, hc => by
    obtain ⟨t, ht⟩ := hp
    have hl : l = x :: y :: (s ++ t) := by simpa using ht.symm
    subst hl
    have hxy : x - y = 1 := (List.chain'_cons.mp hc).1
    have ih := backRun_front_le (y :: s) (y :: (s ++ t)) ⟨t, by simp⟩
      (List.chain'_cons.mp hc).2
    unfold backRun
    rw [if_pos hxy]
    simp only [List.length_cons] at *
    omega

lemma headRun_pos : ∀ l : List Int, l ≠ [] → 1 ≤ headRun l
  | [], h => absurd rfl h
  | [_], _ => le_refl 1
  | _ :: _ :: _, _ => by
    unfold headRun
    split <;> omega

lemma headRun_le : ∀ l : List Int, headRun l ≤ l.length
  | [] => by simp [headRun]
  | [_] => by simp [headRun]
  | a :: b :: r => by
    have ih := headRun_le (b :: r)
    unfold headRun
    split <;> simp only [List.length_cons] at * <;> omega

lemma headRun_chain : ∀ l : List Int,
    List.Chain' (fun a b : Int => b - a = 1) (l.take (headRun l))
  | [] => by simp
  | [x] => by simp [headRun]
  | a :: b :: r => by
    unfold headRun
    by_cases h : b - a = 1
    · rw [if_pos h]
      have hpos := headRun_pos (b :: r) (by simp)
      obtain ⟨m, hm⟩ : ∃ m, headRun (b :: r) = m + 1 := ⟨headRun (b :: r) - 1, by omega⟩
      have hch := headRun_chain (b :: r)
      rw [hm] at *
      simp only [List.take_succ_cons] at *
      exact List.chain'_cons.mpr ⟨h, hch⟩
    · rw [if_neg h]
      simp

lemma headRun_front_le : ∀ (s l : List Int), s <+: l →
    List.Chain' (fun a b : Int => b - a = 1) s → s.length ≤ headRun l
  | [], _, _, _ => by simp
  | [x], l, hp, _ => by
    obtain ⟨t, ht⟩ := hp
    have : l = x :: t := by simpa using ht.symm
    subst this
    simpa using headRun_pos (x :: t) (by simp)
  | x :: y :: s, l, hp, hc => by
    obtain ⟨t, ht⟩ := hp
    have hl : l = x :: y :: (s ++ t) := by simpa using ht.symm
    subst hl
    have hxy : y - x = 1 := (List.chain'_cons.mp hc).1
    have ih := headRun_front_le (y :: s) (y :: (s ++ t)) ⟨t, by simp⟩
      (List.chain'_cons.mp hc).2
    unfold headRun
    rw [if_pos hxy]
    simp only [List.length_cons] at *
    omega

lemma suffix_headRun_le : ∀ (l t : List Int), t <:+ l → headRun t ≤ maxRun l
  | [], t, hs => by
    obtain ⟨u, hu⟩ := hs
    obtain ⟨-, rfl⟩ := List.append_eq_nil.mp hu
    simp [headRun, maxRun]
  | a :: r, t, hs => by
    obtain ⟨u, hu⟩ := hs
    match u with
    | [] =>
      simp only [List.nil_append] at hu
      subst hu
      exact le_max_left _ _
    | c :: u1 =>
      simp only [List.cons_append, List.cons.injEq] at hu
      have ht : t <:+ r := ⟨u1, hu.2⟩
      calc headRun t ≤ maxRun r := suffix_headRun_le r t ht
        _ ≤ maxRun (a :: r) := le_max_right _ _

lemma maxRun_ub (l sub : List Int) (hinf : sub <:+: l)
    (hc : List.Chain' (fun a b : Int => b - a = 1) sub) : sub.length ≤ maxRun l := by
  obtain ⟨s, t, h⟩ := hinf
  have h2 : sub ++ t <:+ l := ⟨s, by rw [← List.append_assoc, h]⟩
  calc sub.length ≤ headRun (sub ++ t) := headRun_front_le sub (sub ++ t) ⟨t, rfl⟩ hc
    _ ≤ maxRun l := suffix_headRun_le l (sub ++ t) h2

lemma maxRun_ex : ∀ l : List Int, l ≠ [] →
    ∃ sub : List Int, sub ≠ [] ∧ sub <:+: l ∧
      List.Chain' (fun a b : Int => b - a = 1) sub ∧ sub.length = maxRun l
  | [], h => absurd rfl h
  | a :: r, _ => by
    rcases le_or_lt (maxRun r) (headRun (a :: r)) with hle | hlt
    · refine ⟨(a :: r).take (headRun (a :: r)), ?_, ?_, headRun_chain _, ?_⟩
      · have hp := headRun_pos (a :: r) (by simp)
        have hlen : ((a :: r).take (headRun (a :: r))).length = headRun (a :: r) := by
          rw [List.length_take]
          exact min_eq_left (headRun_le _)
        refine List.length_pos.mp ?_
        rw [hlen]
        omega
      · exact ⟨[], (a :: r).drop (headRun (a :: r)), by simp [List.take_append_drop]⟩
      · rw [List.length_take, min_eq_left (headRun_le _)]
        have : maxRun (a :: r) = headRun (a :: r) := by
          show max (headRun (a :: r)) (maxRun r) = _
          exact max_eq_left hle
        omega
    · have hr : r ≠ [] := by
        intro hnil
        rw [hnil] at hlt
        simp [maxRun] at hlt
      obtain ⟨sub, hne, ⟨s, t, hst⟩, hc, hlen⟩ := maxRun_ex r hr
      refine ⟨sub, hne, ⟨a :: s, t, by simp [hst]⟩, hc, ?_⟩
      have : maxRun (a :: r) = maxRun r := by
        show max (headRun (a :: r)) (maxRun r) = _
        exact max_eq_right hlt.le
      omega

lemma extRun_headRun : ∀ (d : Int) (r : List Int), headRun (d :: r) = extRun d r + 1
  | _, [] => by simp [headRun, extRun]
  | d, e :: r1 => by
    unfold headRun extRun
    by_cases h : e - d = 1
    · rw [if_pos h, if_pos h, extRun_headRun e r1]
    · rw [if_neg h, if_neg h]

lemma runsMax_eq : ∀ (l : List Int) (tmp : Nat) (prev : Int),
    runsMax tmp prev l =
      if extRun prev l = 0 then maxRun l else max (tmp + extRun prev l) (maxRun l)
  | [], tmp, prev => by simp [runsMax, extRun, maxRun]
  | d :: r, tmp, prev => by
    have ihp := runsMax_eq r (tmp + 1) d
    have ih1 := runsMax_eq r 1 d
    have hF := extRun_headRun d r
    have hM : maxRun (d :: r) = max (headRun (d :: r)) (maxRun r) := rfl
    by_cases h : d - prev = 1
    · simp only [runsMax, extRun, if_pos h]
      rw [ihp]
      by_cases he : extRun d r = 0
      · rw [if_pos he, if_neg (by omega : ¬extRun d r + 1 = 0), hM]
        omega
      · rw [if_neg he, if_neg (by omega : ¬extRun d r + 1 = 0), hM]
        omega
    · simp only [runsMax, extRun, if_neg h, eq_self_iff_true, if_true]
      rw [ih1]
      by_cases he : extRun d r = 0
      · rw [if_pos he, hM]
        omega
      · rw [if_neg he, hM]
        omega

lemma longestgo_eq : ∀ (l : List Int) (prev : Int) (tmp best : Nat),
    longestgo prev tmp best l = max best (runsMax tmp prev l)
  | [], _, _, _ => by simp [longestgo, runsMax]
  | d :: r, prev, tmp, best => by
    simp only [longestgo, runsMax]
    rw [longestgo_eq r d _ _]
    omega

lemma longest_eq_maxRun : ∀ l : List Int, longest_streak l = maxRun l
  | [] => rfl
  | a :: r => by
    show longestgo a 1 1 r = _
    rw [longestgo_eq, runsMax_eq]
    have hF := extRun_headRun a r
    have hM : maxRun (a :: r) = max (headRun (a :: r)) (maxRun r) := rfl
    by_cases he : extRun a r = 0
    · rw [if_pos he, hM]
      omega
    · rw [if_neg he, hM]
      omega

lemma getLast?_some_ne_nil (l : List Int) (x : Int) (h : l.getLast? = some x) : l ≠ [] := by
  intro hnil
  subst hnil
  simp at h

lemma datesOf_ne_nil (rows : List LogRecord) (h : rows ≠ []) : datesOf rows ≠ [] := by
  match rows with
  | [] => exact absurd rfl h
  | x :: rs =>
    have hm : dateOf x.start_time ∈ datesOf (x :: rs) := by
      unfold datesOf
      rw [(List.perm_insertionSort _ _).mem_iff]
      exact List.mem_dedup.mpr (List.mem_map_of_mem _ (List.mem_cons_self _ _))
    exact List.ne_nil_of_mem hm

lemma current_streak_zero (dates : List Int) (today last : Int)
    (h : dates.getLast? = some last) (h1 : last ≠ today) (h2 : last ≠ today - 1) :
    current_streak dates today = 0 := by
  simp only [current_streak, h]
  rw [if_pos ⟨h1, h2⟩]

lemma current_streak_recent (dates : List Int) (today last : Int)
    (h : dates.getLast? = some last) (hre : last = today ∨ last = today - 1) :
    current_streak dates today = backRun dates.reverse := by
  have hno : ¬(last ≠ today ∧ last ≠ today - 1) := by
    rcases hre with h1 | h1 <;> intro hc
    · exact hc.1 h1
    · exact hc.2 h1
  simp only [current_streak, h]
  rw [if_neg hno, if_pos hre]

lemma calc_stats_current (rows : List LogRecord) (today : Int) (h : rows ≠ []) :
    (calc_stats rows today).current_streak = current_streak (datesOf rows) today := by
  simp only [calc_stats]
  rw [if_neg h]

lemma calc_stats_longest (rows : List LogRecord) (today : Int) (h : rows ≠ []) :
    (calc_stats rows today).longest_streak = longest_streak (datesOf rows) := by
  simp only [calc_stats]
  rw [if_neg h]

lemma suffix_of_reverse (s l : List Int) (h : s.reverse <+: l.reverse) : s <:+ l := by
  obtain ⟨t, ht⟩ := h
  refine ⟨t.reverse, ?_⟩
  have h2 := congrArg List.reverse ht
  simpa [List.reverse_append] using h2

lemma reverse_of_suffix (s l : List Int) (h : s <:+ l) : s.reverse <+: l.reverse := by
  obtain ⟨u, hu⟩ := h
  exact ⟨u.reverse, by rw [← hu, List.reverse_append]⟩

lemma chain_rev (s : List Int) :
    List.Chain' (fun a b : Int => a - b = 1) s.reverse ↔
      List.Chain' (fun a b : Int => b - a = 1) s := by
  rw [List.chain'_reverse]
  exact Iff.rfl

lemma backRun_suffix_ex (l : List Int) :
    ∃ s : List Int, s <:+ l ∧ List.Chain' (fun a b : Int => b - a = 1) s ∧
      s.length = backRun l.reverse := by
  refine ⟨(l.reverse.take (backRun l.reverse)).reverse, ?_, ?_, ?_⟩
  · apply suffix_of_reverse
    rw [List.reverse_reverse]
    exact ⟨l.reverse.drop (backRun l.reverse), List.take_append_drop _ _⟩
  · rw [← chain_rev, List.reverse_reverse]
    exact backRun_chain l.reverse
  · rw [List.length_reverse, List.length_take]
    exact min_eq_left (backRun_le l.reverse)

lemma backRun_suffix_ub (l s : List Int) (hs : s <:+ l)
    (hc : List.Chain' (fun a b : Int => b - a = 1) s) :
    s.length ≤ backRun l.reverse := by
  have h1 := reverse_of_suffix s l hs
  have h2 : List.Chain' (fun a b : Int => a - b = 1) s.reverse := (chain_rev s).mpr hc
  have h3 := backRun_front_le s.reverse l.reverse h1 h2
  simpa using h3

/-- Claim C1: `calc_stats` returns `current_streak = 0` when the most
recent distinct start date is neither `today` nor `today - 1`; otherwise
`current_streak` is the length of the maximal run of consecutive calendar
dates ending at that most recent date (the maximal consecutive suffix of
the sorted distinct-date list), with the inclusive count starting at 1. -/
theorem claim_C1_current_streak (rows : List LogRecord) (today last : Int)
    (h : (datesOf rows).getLast? = some last) :
    ((last ≠ today ∧ last ≠ today - 1) → (calc_stats rows today).current_streak = 0) ∧
    ((last = today ∨ last = today - 1) →
      1 ≤ (calc_stats rows today).current_streak ∧
      (∃ s : List Int, s <:+ datesOf rows ∧
        List.Chain' (fun a b : Int => b - a = 1) s ∧
        s.length = (calc_stats rows today).current_streak) ∧
      (∀ s : List Int, s <:+ datesOf rows →
        List.Chain' (fun a b : Int => b - a = 1) s →
        s.length ≤ (calc_stats rows today).current_streak)) := by
  have hdne : datesOf rows ≠ [] := getLast?_some_ne_nil _ _ h
  have hrne : rows ≠ [] := by
    intro hr
    subst hr
    exact hdne rfl
  rw [calc_stats_current rows today hrne]
  constructor
  · intro hz
    exact current_streak_zero _ _ _ h hz.1 hz.2
  · intro hre
    rw [current_streak_recent _ _ _ h hre]
    have hrev : (datesOf rows).reverse ≠ [] := by simpa using hdne
    exact ⟨backRun_pos _ hrev, backRun_suffix_ex _,
      fun s hs hc => backRun_suffix_ub _ s hs hc⟩

/-- Witness for C1 at one record on day 0 with `today = 0`. -/
theorem claim_C1_current_streak_witness :
    1 ≤ (calc_stats [⟨1, 0, 3600, 3600⟩] 0).current_streak :=
  ((claim_C1_current_streak [⟨1, 0, 3600, 3600⟩] 0 0 (by decide)).2 (Or.inl rfl)).1

/-- Claim C6: for a non-empty record set, `longest_streak` is the length
of the longest run of consecutive calendar dates among the distinct start
dates (the longest consecutive infix of the sorted distinct-date list),
at least 1; `longest_streak` of an empty date list is 0; and dates
`D, D+1, D+2, D+4` give `longest_streak = 3`. -/
theorem claim_C6_longest_streak (rows : List LogRecord) (today : Int) (h : rows ≠ []) :
    longest_streak [] = 0 ∧
    1 ≤ (calc_stats rows today).longest_streak ∧
    (∃ sub : List Int, sub ≠ [] ∧ sub <:+: datesOf rows ∧
      List.Chain' (fun a b : Int => b - a = 1) sub ∧
      sub.length = (calc_stats rows today).longest_streak) ∧
    (∀ sub : List Int, sub <:+: datesOf rows →
      List.Chain' (fun a b : Int => b - a = 1) sub →
      sub.length ≤ (calc_stats rows today).longest_streak) ∧
    (∀ D : Int, longest_streak [D, D + 1, D + 2, D + 4] = 3) := by
  have hd := datesOf_ne_nil rows h
  rw [calc_stats_longest rows today h, longest_eq_maxRun (datesOf rows)]
  obtain ⟨sub, hne, hinf, hc, hlen⟩ := maxRun_ex (datesOf rows) hd
  refine ⟨rfl, ?_, ⟨sub, hne, hinf, hc, hlen⟩,
    fun s hs hc2 => maxRun_ub _ s hs hc2, ?_⟩
  · have h1 : 1 ≤ sub.length := by
      match sub, hne with
      | x :: xs, _ => simp
    omega
  · intro D
    rw [longest_eq_maxRun]
    have e1 : D + 1 - D = 1 := by ring
    have e2 : D + 2 - (D + 1) = 1 := by ring
    have e3 : ¬(D + 4 - (D + 2) = 1) := by intro hce; omega
    simp [maxRun, headRun, e1, e2, e3]

/-- Witness for C6 at one record on day 0 and at `D = 5`. -/
theorem claim_C6_longest_streak_witness :
    1 ≤ (calc_stats [⟨1, 0, 3600, 3600⟩] 0).longest_streak ∧
    longest_streak [5, 6, 7, 9] = 3 := by
  have h := claim_C6_longest_streak [⟨1, 0, 3600, 3600⟩] 0 (by decide)
  refine ⟨h.2.1, ?_⟩
  have h2 := h.2.2.2.2 5
  norm_num at h2
  exact h2

lemma cur_le_longest (l : List Int) (today : Int) :
    current_streak l today ≤ longest_streak l := by
  rcases hl : l.getLast? with _ | last
  · have hnil : l = [] := by cases l <;> simp_all
    subst hnil
    exact Nat.zero_le _
  · by_cases hre : last = today ∨ last = today - 1
    · rw [current_streak_recent l today last hl hre, longest_eq_maxRun]
      obtain ⟨s, hs, hc, hslen⟩ := backRun_suffix_ex l
      have hinf : s <:+: l := by
        obtain ⟨u, hu⟩ := hs
        exact ⟨u, [], by simp [hu]⟩
      have hub := maxRun_ub l s hinf hc
      omega
    · push_neg at hre
      rw [current_streak_zero l today last hl hre.1 hre.2]
      exact Nat.zero_le _

/-- Claim C9: the snapshot returned by `calc_stats` always satisfies
`current_streak ≤ longest_streak`. -/
theorem claim_C9_streak_le (rows : List LogRecord) (today : Int) :
    (calc_stats rows today).current_streak ≤ (calc_stats rows today).longest_streak := by
  by_cases h : rows = []
  · subst h
    exact Nat.zero_le _
  · rw [calc_stats_current rows today h, calc_stats_longest rows today h]
    exact cur_le_longest _ _

/-! ### Deduct and direct edit (claims C2, C3, C10) -/

lemma mem_deleteById (st : List LogRecord) (i : Nat) (r : LogRecord) :
    r ∈ deleteById st i ↔ r ∈ st ∧ r.id ≠ i := by
  simp [deleteById, List.mem_filter]

lemma mem_onDate (st : List LogRecord) (d : Int) (r : LogRecord) :
    r ∈ onDate st d ↔ r ∈ st ∧ dateOf r.start_time = d := by
  simp [onDate, List.mem_filter]

lemma updateById_id_start (st : List LogRecord) (i : Nat) (dur e : Int) (r' : LogRecord)
    (h : r' ∈ updateById st i dur e) :
    ∃ r ∈ st, r'.id = r.id ∧ r'.start_time = r.start_time ∧ (r.id ≠ i → r' = r) := by
  simp only [updateById, List.mem_map] at h
  obtain ⟨r, hr, hh⟩ := h
  by_cases hid : r.id = i
  · rw [if_pos hid] at hh
    exact ⟨r, hr, by rw [← hh], by rw [← hh], fun hcon => absurd hid hcon⟩
  · rw [if_neg hid] at hh
    exact ⟨r, hr, by rw [← hh], by rw [← hh], fun _ => hh.symm⟩

lemma mem_updateById_of_ne (st : List LogRecord) (i : Nat) (dur e : Int) (r : LogRecord)
    (hr : r ∈ st) (hid : r.id ≠ i) : r ∈ updateById st i dur e := by
  simp only [updateById, List.mem_map]
  exact ⟨r, hr, by rw [if_neg hid]⟩

lemma mem_updateById_of_eq (st : List LogRecord) (i : Nat) (dur e : Int) (r : LogRecord)
    (hr : r ∈ st) (hid : r.id = i) :
    (⟨r.id, r.start_time, e, dur⟩ : LogRecord) ∈ updateById st i dur e := by
  simp only [updateById, List.mem_map]
  exact ⟨r, hr, by rw [if_pos hid]⟩

lemma deductGo_stop (S : List LogRecord) (rem : Int) (st : List LogRecord) (h : rem ≤ 0) :
    deductGo S rem st = st := by
  cases S with
  | nil => rfl
  | cons l ls =>
    simp only [deductGo]
    rw [if_pos h]

lemma deductGo_src : ∀ (S : List LogRecord) (rem : Int) (st : List LogRecord)
    (r' : LogRecord), r' ∈ deductGo S rem st →
    ∃ r ∈ st, r'.id = r.id ∧ r'.start_time = r.start_time ∧
      (r' ≠ r → ∃ l ∈ S, r.id = l.id)
  | [], _, st, r', h => by
    refine ⟨r', by simpa [deductGo] using h, rfl, rfl, fun hc => absurd rfl hc⟩
  | l :: ls, rem, st, r', h => by
    simp only [deductGo] at h
    by_cases h0 : rem ≤ 0
    · rw [if_pos h0] at h
      exact ⟨r', h, rfl, rfl, fun hc => absurd rfl hc⟩
    · rw [if_neg h0] at h
      by_cases h1 : l.duration_seconds ≤ rem
      · rw [if_pos h1] at h
        obtain ⟨r, hr, hid, hstart, hmod⟩ := deductGo_src ls _ _ r' h
        rw [mem_deleteById] at hr
        refine ⟨r, hr.1, hid, hstart, fun hne => ?_⟩
        obtain ⟨l2, hl2m, hl2i⟩ := hmod hne
        exact ⟨l2, List.mem_cons_of_mem _ hl2m, hl2i⟩
      · rw [if_neg h1] at h
        rw [deductGo_stop _ _ _ (le_refl 0)] at h
        obtain ⟨r, hr, hid, hstart, hup⟩ := updateById_id_start _ _ _ _ _ h
        refine ⟨r, hr, hid, hstart, fun hne => ?_⟩
        by_cases hri : r.id = l.id
        · exact ⟨l, List.mem_cons_self _ _, hri⟩
        · exact absurd (hup hri) hne

lemma deductGo_pos : ∀ (S : List LogRecord) (rem : Int) (st : List LogRecord),
    (∀ r ∈ st, 0 < r.duration_seconds) →
    ∀ r' ∈ deductGo S rem st, 0 < r'.duration_seconds
  | [], _, st, hpos, r', h => hpos r' (by simpa [deductGo] using h)
  | l :: ls, rem, st, hpos, r', h => by
    simp only [deductGo] at h
    by_cases h0 : rem ≤ 0
    · rw [if_pos h0] at h
      exact hpos r' h
    · rw [if_neg h0] at h
      by_cases h1 : l.duration_seconds ≤ rem
      · rw [if_pos h1] at h
        refine deductGo_pos ls _ _ ?_ r' h
        intro r hr
        exact hpos r ((mem_deleteById _ _ _).mp hr).1
      · rw [if_neg h1] at h
        rw [deductGo_stop _ _ _ (le_refl 0)] at h
        simp only [updateById, List.mem_map] at h
        obtain ⟨r, hr, hh⟩ := h
        by_cases hid : r.id = l.id
        · rw [if_pos hid] at hh
          rw [← hh]
          show 0 < l.duration_seconds - rem
          omega
        · rw [if_neg hid] at hh
          rw [← hh]
          exact hpos r hr

lemma deductGo_keep : ∀ (S : List LogRecord) (rem : Int) (st : List LogRecord)
    (r : LogRecord), r ∈ st → (∀ l ∈ S, l.id ≠ r.id) → r ∈ deductGo S rem st
  | [], _, _, r, hr, _ => by simpa [deductGo] using hr
  | l :: ls, rem, st, r, hr, hids => by
    simp only [deductGo]
    by_cases h0 : rem ≤ 0
    · rw [if_pos h0]
      exact hr
    · rw [if_neg h0]
      have hlid : l.id ≠ r.id := hids l (List.mem_cons_self _ _)
      by_cases h1 : l.duration_seconds ≤ rem
      · rw [if_pos h1]
        refine deductGo_keep ls _ _ r ?_ (fun l2 hl2 => hids l2 (List.mem_cons_of_mem _ hl2))
        exact (mem_deleteById _ _ _).mpr ⟨hr, fun hc => hlid hc.symm⟩
      · rw [if_neg h1]
        rw [deductGo_stop _ _ _ (le_refl 0)]
        exact mem_updateById_of_ne _ _ _ _ r hr (fun hc => hlid hc.symm)

lemma sumDur_nonneg (l : List LogRecord) (h : ∀ r ∈ l, 0 < r.duration_seconds) :
    0 ≤ sumDur l := by
  induction l with
  | nil => simp [sumDur]
  | cons a t ih =>
    have ha := h a (List.mem_cons_self _ _)
    have ht := ih (fun r hr => h r (List.mem_cons_of_mem _ hr))
    simp only [sumDur, List.map_cons, List.sum_cons] at *
    omega

lemma sortedOnDate_mem (st : List LogRecord) (d : Int) (l : LogRecord)
    (h : l ∈ sortedOnDate st d) : l ∈ st ∧ dateOf l.start_time = d := by
  unfold sortedOnDate at h
  rw [(List.perm_insertionSort _ _).mem_iff] at h
  exact (mem_onDate _ _ _).mp h

lemma sortedOnDate_nodup_ids (st : List LogRecord) (d : Int)
    (h : (st.map fun r => r.id).Nodup) :
    ((sortedOnDate st d).map fun r => r.id).Nodup := by
  have hp := (List.perm_insertionSort startDesc (onDate st d)).map fun r => r.id
  unfold sortedOnDate
  rw [hp.nodup_iff]
  exact ((List.filter_sublist st).map fun r => r.id).nodup h

lemma deductGo_cases : ∀ (S : List LogRecord) (rem : Int) (st : List LogRecord),
    (∀ l ∈ S, l ∈ st) → ((S.map fun r => r.id).Nodup) →
    (∀ r ∈ st, 0 < r.duration_seconds) → 0 < rem →
    ∀ (i : Nat) (hi : i < S.length),
      (rem ≤ sumDur (S.take i) → S.get ⟨i, hi⟩ ∈ deductGo S rem st) ∧
      (sumDur (S.take i) + (S.get ⟨i, hi⟩).duration_seconds ≤ rem →
        ∀ r' ∈ deductGo S rem st, r'.id ≠ (S.get ⟨i, hi⟩).id) ∧
      (sumDur (S.take i) < rem →
        rem < sumDur (S.take i) + (S.get ⟨i, hi⟩).duration_seconds →
        (⟨(S.get ⟨i, hi⟩).id, (S.get ⟨i, hi⟩).start_time,
          (S.get ⟨i, hi⟩).start_time +
            (sumDur (S.take i) + (S.get ⟨i, hi⟩).duration_seconds - rem),
          sumDur (S.take i) + (S.get ⟨i, hi⟩).duration_seconds - rem⟩ : LogRecord)
          ∈ deductGo S rem st)
  | [], _, _, _, _, _, _, _, hi => absurd hi (by simp)
  | l :: ls, rem, st, hsub, hnd, hpos, hrem, 0, hi => by
    have hg0 : (l :: ls).get ⟨0, hi⟩ = l := rfl
    have ht0 : sumDur ((l :: ls).take 0) = 0 := rfl
    have hrem0 : ¬rem ≤ 0 := not_le.mpr hrem
    rw [hg0, ht0]
    refine ⟨?_, ?_, ?_⟩
    · intro h0
      exact absurd h0 hrem0
    · intro hdel r' hr'
      have hld : l.duration_seconds ≤ rem := by omega
      simp only [deductGo] at hr'
      rw [if_neg hrem0, if_pos hld] at hr'
      obtain ⟨r, hrmem, hid, -, -⟩ := deductGo_src ls _ _ r' hr'
      rw [mem_deleteById] at hrmem
      rw [hid]
      exact hrmem.2
    · intro h1 h2
      have hld : ¬l.duration_seconds ≤ rem := by omega
      simp only [deductGo]
      rw [if_neg hrem0, if_neg hld, deductGo_stop _ _ _ (le_refl 0)]
      have hz : (0 : Int) + l.duration_seconds - rem = l.duration_seconds - rem := by ring
      rw [hz]
      exact mem_updateById_of_eq st l.id (l.duration_seconds - rem)
        (l.start_time + (l.duration_seconds - rem)) l (hsub l (List.mem_cons_self _ _)) rfl
  | l :: ls, rem, st, hsub, hnd, hpos, hrem, i + 1, hi => by
    have hi2 : i < ls.length := by
      simpa using hi
    have hgs : (l :: ls).get ⟨i + 1, hi⟩ = ls.get ⟨i, hi2⟩ := rfl
    have hts : sumDur ((l :: ls).take (i + 1)) = l.duration_seconds + sumDur (ls.take i) := by
      simp [sumDur]
    have hrem0 : ¬rem ≤ 0 := not_le.mpr hrem
    have hldur := hpos l (hsub l (List.mem_cons_self _ _))
    have hsub2 : ∀ l2 ∈ ls, l2 ∈ st := fun l2 h2 => hsub l2 (List.mem_cons_of_mem _ h2)
    obtain ⟨hlid_fun, hnd2⟩ :
        (∀ x ∈ ls, ¬x.id = l.id) ∧ (List.map (fun r => r.id) ls).Nodup := by
      simpa using hnd
    have hpre : 0 ≤ sumDur (ls.take i) :=
      sumDur_nonneg _ (fun r hr => hpos r (hsub2 r (List.take_subset _ _ hr)))
    have hpi : 0 < (ls.get ⟨i, hi2⟩).duration_seconds :=
      hpos _ (hsub2 _ (List.get_mem ls i hi2))
    have hnotid : (ls.get ⟨i, hi2⟩).id ≠ l.id :=
      hlid_fun _ (List.get_mem ls i hi2)
    rw [hgs, hts]
    by_cases h1 : l.duration_seconds ≤ rem
    · by_cases heq : rem - l.duration_seconds ≤ 0
      · have hres : deductGo (l :: ls) rem st = deleteById st l.id := by
          simp only [deductGo]
          rw [if_neg hrem0, if_pos h1, deductGo_stop _ _ _ heq]
        rw [hres]
        refine ⟨?_, ?_, ?_⟩
        · intro _
          exact (mem_deleteById _ _ _).mpr ⟨hsub2 _ (List.get_mem ls i hi2), hnotid⟩
        · intro hdel
          exfalso
          omega
        · intro hc1 hc2
          exfalso
          omega
      · push_neg at heq
        have hres : deductGo (l :: ls) rem st =
            deductGo ls (rem - l.duration_seconds) (deleteById st l.id) := by
          simp only [deductGo]
          rw [if_neg hrem0, if_pos h1]
        have hsubD : ∀ l2 ∈ ls, l2 ∈ deleteById st l.id := by
          intro l2 h2
          exact (mem_deleteById _ _ _).mpr ⟨hsub2 l2 h2, hlid_fun l2 h2⟩
        have hposD : ∀ r ∈ deleteById st l.id, 0 < r.duration_seconds :=
          fun r hr => hpos r ((mem_deleteById _ _ _).mp hr).1
        have IH := deductGo_cases ls (rem - l.duration_seconds) (deleteById st l.id)
          hsubD hnd2 hposD heq i hi2
        rw [hres]
        refine ⟨fun hc => IH.1 (by omega), fun hc r' hr' => IH.2.1 (by omega) r' hr',
          fun hc1 hc2 => ?_⟩
        have hmem := IH.2.2 (by omega) (by omega)
        have harith : l.duration_seconds + sumDur (ls.take i) +
            (ls.get ⟨i, hi2⟩).duration_seconds - rem =
            sumDur (ls.take i) + (ls.get ⟨i, hi2⟩).duration_seconds -
              (rem - l.duration_seconds) := by
          ring
        rw [harith]
        exact hmem
    · push_neg at h1
      have hres : deductGo (l :: ls) rem st =
          updateById st l.id (l.duration_seconds - rem)
            (l.start_time + (l.duration_seconds - rem)) := by
        simp only [deductGo]
        rw [if_neg hrem0, if_neg (not_le.mpr h1), deductGo_stop _ _ _ (le_refl 0)]
      rw [hres]
      refine ⟨?_, ?_, ?_⟩
      · intro _
        exact mem_updateById_of_ne _ _ _ _ _ (hsub2 _ (List.get_mem ls i hi2)) hnotid
      · intro hc
        exfalso
        omega
      · intro hc1 hc2
        exfalso
        omega

/-- Claim C3: Deduct with a positive minute count processes exactly the
records whose start date equals the target date, in descending start-time
order (a stable sort of the on-date records): writing `pre` for the sum of
the durations already consumed before position `i`, a record is left
untouched when the requested seconds are already consumed (`sec ≤ pre`),
deleted when its whole duration fits (`pre + dur ≤ sec`), and otherwise
shrunk to `pre + dur - sec` seconds with `end_time = start_time + new
duration`; no surviving record has duration `≤ 0`; and with no records on
the date the operation changes no state. -/
theorem claim_C3_deduct (st : List LogRecord) (d : Int) (mins : Int)
    (hmins : 0 < mins)
    (hids : (st.map fun r => r.id).Nodup)
    (hdur : ∀ r ∈ st, 0 < r.duration_seconds) :
    (onDate st d = [] → deduct st d mins = st) ∧
    (∀ r' ∈ deduct st d mins, 0 < r'.duration_seconds) ∧
    List.Sorted startDesc (sortedOnDate st d) ∧
    (sortedOnDate st d).Perm (onDate st d) ∧
    (∀ (i : Nat) (hi : i < (sortedOnDate st d).length),
      (mins * 60 ≤ sumDur ((sortedOnDate st d).take i) →
        (sortedOnDate st d).get ⟨i, hi⟩ ∈ deduct st d mins) ∧
      (sumDur ((sortedOnDate st d).take i) +
          ((sortedOnDate st d).get ⟨i, hi⟩).duration_seconds ≤ mins * 60 →
        ∀ r' ∈ deduct st d mins, r'.id ≠ ((sortedOnDate st d).get ⟨i, hi⟩).id) ∧
      (sumDur ((sortedOnDate st d).take i) < mins * 60 →
        mins * 60 < sumDur ((sortedOnDate st d).take i) +
          ((sortedOnDate st d).get ⟨i, hi⟩).duration_seconds →
        (⟨((sortedOnDate st d).get ⟨i, hi⟩).id,
          ((sortedOnDate st d).get ⟨i, hi⟩).start_time,
          ((sortedOnDate st d).get ⟨i, hi⟩).start_time +
            (sumDur ((sortedOnDate st d).take i) +
              ((sortedOnDate st d).get ⟨i, hi⟩).duration_seconds - mins * 60),
          sumDur ((sortedOnDate st d).take i) +
            ((sortedOnDate st d).get ⟨i, hi⟩).duration_seconds - mins * 60⟩ : LogRecord)
          ∈ deduct st d mins)) := by
  constructor
  · intro h0
    simp only [deduct]
    rw [if_pos h0]
  constructor
  · intro r' hr'
    simp only [deduct] at hr'
    by_cases h0 : onDate st d = []
    · rw [if_pos h0] at hr'
      exact hdur r' hr'
    · rw [if_neg h0] at hr'
      exact deductGo_pos _ _ _ hdur r' hr'
  refine ⟨List.sorted_insertionSort _ _, List.perm_insertionSort _ _, ?_⟩
  intro i hi
  have hone : ¬onDate st d = [] := by
    intro hh
    unfold sortedOnDate at hi
    rw [hh] at hi
    simp [List.insertionSort] at hi
  have hde : deduct st d mins = deductGo (sortedOnDate st d) (mins * 60) st := by
    simp only [deduct]
    rw [if_neg hone]
  rw [hde]
  exact deductGo_cases (sortedOnDate st d) (mins * 60) st
    (fun l hl => (sortedOnDate_mem st d l hl).1)
    (sortedOnDate_nodup_ids st d hids)
    hdur (by omega) i hi

/-- Witness for C3: two on-date records of 30 and 20 minutes, deduct 40
minutes — the older record survives shrunk to 10 minutes (600 s). -/
theorem claim_C3_deduct_witness :
    (⟨2, 0, 600, 600⟩ : LogRecord) ∈
      deduct [⟨1, 3600, 5400, 1800⟩, ⟨2, 0, 1200, 1200⟩] 0 40 := by
  have h := claim_C3_deduct [⟨1, 3600, 5400, 1800⟩, ⟨2, 0, 1200, 1200⟩] 0 40
    (by norm_num) (by decide) (by decide)
  have hi : 1 < (sortedOnDate [⟨1, 3600, 5400, 1800⟩, ⟨2, 0, 1200, 1200⟩] 0).length := by
    decide
  have hg : (sortedOnDate [⟨1, 3600, 5400, 1800⟩, ⟨2, 0, 1200, 1200⟩] 0).get ⟨1, hi⟩ =
      ⟨2, 0, 1200, 1200⟩ := rfl
  have ht : sumDur ((sortedOnDate [⟨1, 3600, 5400, 1800⟩, ⟨2, 0, 1200, 1200⟩] 0).take 1) =
      1800 := rfl
  have h2 := (h.2.2.2.2 1 hi).2.2 (by rw [ht]; norm_num) (by rw [ht, hg]; norm_num)
  rw [hg, ht] at h2
  norm_num at h2
  exact h2

/-- Claim C10: Deduct leaves every record whose start date differs from
the target date unchanged; and every record surviving Deduct or either
variant of the direct edit keeps its `id` and `start_time` (only
`end_time` and `duration_seconds` are ever changed, or the record is
deleted). -/
theorem claim_C10_frame :
    (∀ (st : List LogRecord) (d : Int) (mins : Int),
      (st.map fun r => r.id).Nodup →
      ∀ r ∈ st, dateOf r.start_time ≠ d → r ∈ deduct st d mins) ∧
    (∀ (st : List LogRecord) (d : Int) (mins : Int),
      (st.map fun r => r.id).Nodup →
      ∀ r' ∈ deduct st d mins, ∃ r ∈ st, r'.id = r.id ∧ r'.start_time = r.start_time ∧
        (dateOf r.start_time ≠ d → r' = r)) ∧
    (∀ (st : List LogRecord) (i : Nat) (m : Int),
      ∀ r' ∈ apply_change st i m, ∃ r ∈ st, r'.id = r.id ∧ r'.start_time = r.start_time) ∧
    (∀ (st : List LogRecord) (i : Nat) (m : Int),
      ∀ r' ∈ apply_change_v0 st i m, ∃ r ∈ st, r'.id = r.id ∧ r'.start_time = r.start_time) := by
  refine ⟨?_, ?_, ?_, ?_⟩
  · intro st d mins hids r hr hdate
    simp only [deduct]
    by_cases h0 : onDate st d = []
    · rw [if_pos h0]
      exact hr
    · rw [if_neg h0]
      refine deductGo_keep _ _ _ r hr ?_
      intro l hl hc
      have hlm := sortedOnDate_mem st d l hl
      have hlr : l = r := List.inj_on_of_nodup_map hids hlm.1 hr hc
      rw [hlr] at hlm
      exact hdate hlm.2
  · intro st d mins hids r' hr'
    simp only [deduct] at hr'
    by_cases h0 : onDate st d = []
    · rw [if_pos h0] at hr'
      exact ⟨r', hr', rfl, rfl, fun _ => rfl⟩
    · rw [if_neg h0] at hr'
      obtain ⟨r, hr, hid, hstart, hmod⟩ := deductGo_src _ _ _ r' hr'
      refine ⟨r, hr, hid, hstart, fun hdate => ?_⟩
      by_cases hne : r' = r
      · exact hne
      · obtain ⟨l, hl, hli⟩ := hmod hne
        have hlm := sortedOnDate_mem st d l hl
        have hrl : r = l := List.inj_on_of_nodup_map hids hr hlm.1 hli
        rw [hrl] at hdate
        exact absurd hlm.2 hdate
  · intro st i m r' hr'
    simp only [apply_change] at hr'
    rcases hfind : st.find? (fun r => decide (r.id = i)) with _ | log
    · rw [hfind] at hr'
      exact ⟨r', hr', rfl, rfl⟩
    · rw [hfind] at hr'
      simp only [] at hr'
      by_cases hd : log.duration_seconds + m * 60 ≤ 0
      · rw [if_pos hd] at hr'
        exact ⟨r', ((mem_deleteById _ _ _).mp hr').1, rfl, rfl⟩
      · rw [if_neg hd] at hr'
        obtain ⟨r, hr, hid, hstart, -⟩ := updateById_id_start _ _ _ _ _ hr'
        exact ⟨r, hr, hid, hstart⟩
  · intro st i m r' hr'
    simp only [apply_change_v0] at hr'
    rcases hfind : st.find? (fun r => decide (r.id = i)) with _ | log
    · rw [hfind] at hr'
      exact ⟨r', hr', rfl, rfl⟩
    · rw [hfind] at hr'
      simp only [] at hr'
      by_cases hd : log.duration_seconds + m * 60 ≤ 0
      · rw [if_pos hd] at hr'
        exact ⟨r', ((mem_deleteById _ _ _).mp hr').1, rfl, rfl⟩
      · rw [if_neg hd] at hr'
        obtain ⟨r, hr, hid, hstart, -⟩ := updateById_id_start _ _ _ _ _ hr'
        exact ⟨r, hr, hid, hstart⟩

/-- Witness for C10: deducting on day 0 leaves the day-1 record intact. -/
theorem claim_C10_frame_witness :
    (⟨2, 90000, 93600, 3600⟩ : LogRecord) ∈
      deduct [⟨1, 0, 3600, 3600⟩, ⟨2, 90000, 93600, 3600⟩] 0 10 :=
  claim_C10_frame.1 [⟨1, 0, 3600, 3600⟩, ⟨2, 90000, 93600, 3600⟩] 0 10 (by decide)
    ⟨2, 90000, 93600, 3600⟩ (by decide) (by decide)

/-- Claim C2 evaluated at the failing input (id 1, start 0, duration
600 s, delta +1 minute): the `tracker.py` direct edit produces duration
660 and `end_time = start_time + 660` as the claim states, but the
`part_000` variant produces `end_time = start_time + 60` — the delta
alone — leaving `end_time ≠ start_time + duration_seconds`. -/
theorem claim_C2_direct_edit_eval :
    apply_change [⟨1, 0, 600, 600⟩] 1 1 = [⟨1, 0, 660, 660⟩] ∧
    apply_change_v0 [⟨1, 0, 600, 600⟩] 1 1 = [⟨1, 0, 60, 660⟩] :=
  ⟨by decide, by decide⟩

/-! ### Import (claim C4) -/

lemma importGo_spec (fail : Nat → Bool) : ∀ (recs : List ImportRec) (idx : Nat),
    (importGo fail recs idx).1 =
      ((List.enumFrom idx recs).filter fun p => importWellFormed p.2 && !fail p.1).map
        (fun p => (p.2.startVal, p.2.endVal, p.2.durVal)) ∧
    (importGo fail recs idx).2 =
      ((List.enumFrom idx recs).filter fun p => importWellFormed p.2 && !fail p.1).length
  | [], idx => by simp [importGo]
  | r :: rs, idx => by
    have ih := importGo_spec fail rs (idx + 1)
    cases hw : importWellFormed r <;> cases hf : fail idx <;>
      simp [importGo, List.enumFrom, List.filter_cons, hw, hf, ih.1, ih.2]

/-- Claim C4: the import skips any record missing one of the keys
`start_time`, `end_time`, `duration_seconds`; a per-record insert failure
is swallowed and does not abort the rest of the batch (the result is the
filter of the whole indexed batch, independent of where failures occur);
the reported count is exactly the number of successfully added records;
and importing one well-formed record together with `{"bad": "record"}`
yields a count of exactly 1. -/
theorem claim_C4_import :
    (∀ (recs : List ImportRec) (fail : Nat → Bool),
      (import_json recs fail).2 = (import_json recs fail).1.length ∧
      (import_json recs fail).1 =
        ((recs.enum).filter fun p => importWellFormed p.2 && !fail p.1).map
          (fun p => (p.2.startVal, p.2.endVal, p.2.durVal))) ∧
    (import_json
      [⟨true, true, true, "2024-01-01T00:00:00", "2024-01-01T01:00:00", 3600⟩,
       ⟨false, false, false, "", "", 0⟩] (fun _ => false)).2 = 1 := by
  constructor
  · intro recs fail
    have h := importGo_spec fail recs 0
    constructor
    · show (importGo fail recs 0).2 = (importGo fail recs 0).1.length
      rw [h.1, h.2, List.length_map]
    · show (importGo fail recs 0).1 = _
      rw [h.1]
      rfl
  · decide

/-! ### Heatmap colors (claim C8) -/

lemma lookup_pair_mem (data : List (Int × Nat)) (k : Int) (v : Nat)
    (h : List.lookup k data = some v) : (k, v) ∈ data := by
  induction data with
  | nil => simp [List.lookup] at h
  | cons p rest ih =>
    match p with
    | (k1, v1) =>
      rw [List.lookup] at h
      by_cases hk : k == k1
      · simp only [hk, if_pos] at h
        simp at hk h
        subst hk
        rw [h]
        exact List.mem_cons_self _ _
      · simp only [hk] at h
        exact List.mem_cons_of_mem _ (ih h)

lemma foldlmax_ge : ∀ (vs : List Nat) (v0 : Nat),
    v0 ≤ vs.foldl max v0 ∧ ∀ w ∈ vs, w ≤ vs.foldl max v0
  | [], v0 => ⟨le_refl _, by simp⟩
  | w :: ws, v0 => by
    have ih := foldlmax_ge ws (max v0 w)
    simp only [List.foldl]
    constructor
    · exact le_trans (le_max_left _ _) ih.1
    · intro x hx
      rcases List.mem_cons.mp hx with h | h
      · subst h
        exact le_trans (le_max_right _ _) ih.1
      · exact ih.2 x h

lemma foldlmax_mem : ∀ (vs : List Nat) (v0 : Nat),
    vs.foldl max v0 = v0 ∨ vs.foldl max v0 ∈ vs
  | [], _ => Or.inl rfl
  | w :: ws, v0 => by
    have ih := foldlmax_mem ws (max v0 w)
    simp only [List.foldl]
    rcases ih with h | h
    · rcases le_total w v0 with hc | hc
      · left
        rw [h, max_eq_left hc]
      · right
        rw [h, max_eq_right hc]
        exact List.mem_cons_self _ _
    · right
      exact List.mem_cons_of_mem _ h

lemma maxVal_of_max (data : List (Int × Nat)) (v : Nat)
    (hmem : v ∈ data.map Prod.snd) (hmax : ∀ w ∈ data.map Prod.snd, w ≤ v) :
    maxVal data = v := by
  rcases hd : data.map Prod.snd with _ | ⟨v0, vs⟩
  · rw [hd] at hmem
    simp at hmem
  · rw [hd] at hmem hmax
    have hM : maxVal data = vs.foldl max v0 := by
      unfold maxVal
      rw [hd]
    rw [hM]
    apply le_antisymm
    · rcases foldlmax_mem vs v0 with h | h
      · rw [h]
        exact hmax v0 (List.mem_cons_self _ _)
      · exact hmax _ (List.mem_cons_of_mem _ h)
    · rcases List.mem_cons.mp hmem with h | h
      · rw [h]
        exact (foldlmax_ge vs v0).1
      · exact (foldlmax_ge vs v0).2 v h

lemma getColorIdx_cases (maxv v : Nat) (hv : v ≠ 0) :
    (getColorIdx maxv v = 1 ↔ (v : ℚ) / (maxv : ℚ) < 1 / 4) ∧
    (getColorIdx maxv v = 2 ↔
      1 / 4 ≤ (v : ℚ) / (maxv : ℚ) ∧ (v : ℚ) / (maxv : ℚ) < 1 / 2) ∧
    (getColorIdx maxv v = 3 ↔
      1 / 2 ≤ (v : ℚ) / (maxv : ℚ) ∧ (v : ℚ) / (maxv : ℚ) < 3 / 4) ∧
    (getColorIdx maxv v = 4 ↔ 3 / 4 ≤ (v : ℚ) / (maxv : ℚ)) := by
  have hg : getColorIdx maxv v =
      (if (v : ℚ) / (maxv : ℚ) < 1 / 4 then 1
       else if (v : ℚ) / (maxv : ℚ) < 1 / 2 then 2
       else if (v : ℚ) / (maxv : ℚ) < 3 / 4 then 3 else 4) := by
    unfold getColorIdx
    rw [if_neg hv]
  rw [hg]
  rcases lt_or_le ((v : ℚ) / (maxv : ℚ)) (1 / 4) with h1 | h1
  · rw [if_pos h1]
    exact ⟨iff_of_true rfl h1,
      iff_of_false (by norm_num) (fun hh => absurd hh.1 (not_le.mpr h1)),
      iff_of_false (by norm_num) (fun hh => absurd hh.1 (not_le.mpr (by linarith))),
      iff_of_false (by norm_num) (fun hh => absurd hh (not_le.mpr (by linarith)))⟩
  · rw [if_neg (not_lt.mpr h1)]
    rcases lt_or_le ((v : ℚ) / (maxv : ℚ)) (1 / 2) with h2 | h2
    · rw [if_pos h2]
      exact ⟨iff_of_false (by norm_num) (fun hh => absurd hh (not_lt.mpr h1)),
        iff_of_true rfl ⟨h1, h2⟩,
        iff_of_false (by norm_num) (fun hh => absurd hh.1 (not_le.mpr h2)),
        iff_of_false (by norm_num) (fun hh => absurd hh (not_le.mpr (by linarith)))⟩
    · rw [if_neg (not_lt.mpr h2)]
      rcases lt_or_le ((v : ℚ) / (maxv : ℚ)) (3 / 4) with h3 | h3
      · rw [if_pos h3]
        exact ⟨iff_of_false (by norm_num) (fun hh => absurd hh (not_lt.mpr h1)),
          iff_of_false (by norm_num) (fun hh => absurd hh.2 (not_lt.mpr h2)),
          iff_of_true rfl ⟨h2, h3⟩,
          iff_of_false (by norm_num) (fun hh => absurd hh (not_le.mpr h3))⟩
      · rw [if_neg (not_lt.mpr h3)]
        exact ⟨iff_of_false (by norm_num) (fun hh => absurd hh (not_lt.mpr h1)),
          iff_of_false (by norm_num) (fun hh => absurd hh.2 (not_lt.mpr h2)),
          iff_of_false (by norm_num) (fun hh => absurd hh.2 (not_lt.mpr h3)),
          iff_of_true rfl h3⟩

/-- Claim C8 (amended): a day with 0 seconds renders in the zero tier;
a day with a nonzero value picks one of the four remaining tiers by the
ratio of its value to the yearly maximum at thresholds 25%, 50% and 75%;
with no data the maximum defaults to 1 and every date renders in the zero
tier; and a day holding the yearly maximum renders in the top tier
whenever that maximum is positive. -/
theorem claim_C8_heatmap_colors :
    (∀ (data : List (Int × Nat)) (d : Int),
      (List.lookup d data).getD 0 = 0 → dayColor data d = 0) ∧
    (∀ (data : List (Int × Nat)) (d : Int) (v : Nat),
      List.lookup d data = some v → v ≠ 0 →
      ((dayColor data d = 1 ↔ (v : ℚ) / (maxVal data : ℚ) < 1 / 4) ∧
       (dayColor data d = 2 ↔
         1 / 4 ≤ (v : ℚ) / (maxVal data : ℚ) ∧ (v : ℚ) / (maxVal data : ℚ) < 1 / 2) ∧
       (dayColor data d = 3 ↔
         1 / 2 ≤ (v : ℚ) / (maxVal data : ℚ) ∧ (v : ℚ) / (maxVal data : ℚ) < 3 / 4) ∧
       (dayColor data d = 4 ↔ 3 / 4 ≤ (v : ℚ) / (maxVal data : ℚ)))) ∧
    (maxVal [] = 1 ∧ ∀ d : Int, dayColor [] d = 0) ∧
    (∀ (data : List (Int × Nat)) (d : Int) (v : Nat),
      List.lookup d data = some v → (∀ p ∈ data, p.2 ≤ v) → 0 < v →
      dayColor data d = 4) := by
  refine ⟨?_, ?_, ⟨rfl, fun d => rfl⟩, ?_⟩
  · intro data d h
    unfold dayColor
    rw [h]
    unfold getColorIdx
    rw [if_pos rfl]
  · intro data d v hl hv
    have hgd : (List.lookup d data).getD 0 = v := by rw [hl]; rfl
    unfold dayColor
    rw [hgd]
    exact getColorIdx_cases (maxVal data) v hv
  · intro data d v hl hall hpos
    have hmem : (d, v) ∈ data := lookup_pair_mem data d v hl
    have hvm : v ∈ data.map Prod.snd := List.mem_map_of_mem Prod.snd hmem
    have hmax : ∀ w ∈ data.map Prod.snd, w ≤ v := by
      intro w hw
      obtain ⟨p, hp, hpe⟩ := List.mem_map.mp hw
      rw [← hpe]
      exact hall p hp
    have hM : maxVal data = v := maxVal_of_max data v hvm hmax
    have hgd : (List.lookup d data).getD 0 = v := by rw [hl]; rfl
    unfold dayColor
    rw [hgd, hM]
    have hq : (v : ℚ) / (v : ℚ) = 1 := div_self (by exact_mod_cast hpos.ne')
    have hc := (getColorIdx_cases v v (by omega)).2.2.2
    rw [hq] at hc
    exact hc.mpr (by norm_num)

/-- Counterexample to C8 as stated: in the year mapping with a single day
at 0 seconds, that day holds the yearly maximum yet renders in the zero
tier, not the top tier. -/
theorem claim_C8_heatmap_cex :
    ¬(∀ (data : List (Int × Nat)) (d : Int) (v : Nat),
        List.lookup d data = some v → (∀ p ∈ data, p.2 ≤ v) →
        dayColor data d = 4) := by
  intro h
  have hc := h [(0, 0)] 0 0 (by decide) (by decide)
  exact absurd hc (by decide)

/-- Witness for C8 at a day holding a positive maximum and at the empty
mapping. -/
theorem claim_C8_heatmap_colors_witness :
    dayColor [(5, 100)] 5 = 4 ∧ dayColor [] 3 = 0 :=
  ⟨claim_C8_heatmap_colors.2.2.2 [(5, 100)] 5 100 (by decide) (by decide) (by decide),
   claim_C8_heatmap_colors.2.2.1.2 3⟩
